import Mathlib

/-!
# Verification of the FPRECSYS mood-based recommendation core

Shallow embedding of `src/FPRECSYS/recsys.py` (class `SpotifyRecSysConstrained`)
and `src/FPRECSYS/mood_extractor.py` (class `MoodExtractor`).

Modelling conventions:
* `numpy` float arrays become `List ℚ` (exact rational arithmetic idealizes
  IEEE floats; the constants 0.5 = 1/2, 0.4 = 2/5 are taken exactly).
* Python `dict`s become ordered association lists `List (String × _)`;
  Python 3.7+ dicts iterate in insertion order, which the lists preserve.
* A float `NaN` (arising from `0.0 / 0.0`) is modelled by `Option.none`:
  rational division by zero in Lean yields `0`, which would silently differ
  from float semantics, so division results that can be `NaN` are guarded.
* Cosine similarity `dot u v / (‖u‖ * ‖v‖)` involves square roots; a score is
  represented exactly as the pair `SimScore.mk num rad` denoting the real
  number `num / Real.sqrt rad` (with `rad > 0` in every score the pipeline
  produces).  Order comparisons on such numbers are decidable in ℚ via the
  strictly monotone map `x ↦ x * |x|`: the key `num * |num| / rad` orders the
  scores exactly as the real cosine values do.
* `np.argsort` (ascending) followed by `[::-1]` is modelled as the stable
  argsort: sorting by the lexicographic order on (value, index).  numpy's
  default quicksort is *not* stable beyond its small-array insertion-sort
  cutoff, so the order of equal values is unspecified in the program; the
  model fixes one concrete deterministic order.  Accordingly, general
  theorems about the ranker only state conclusions that hold under *every*
  order of equal scores (score-descending sortedness, positivity filter,
  truncation, exclusion); the one tie-order-sensitive fact stated is a
  concrete 2-row counterexample, a size at which numpy does run its stable
  insertion sort, where the model coincides with the program.
-/

/-- `self.feature_cols` (recsys.py lines 12-15): the fixed, ordered list of
the 9 audio features. -/
def featureCols : List String :=
  ["acousticness", "danceability", "energy", "instrumentalness",
   "liveness", "loudness", "speechiness", "tempo", "valence"]

/-- `self.feature_constraints` (recsys.py lines 22-35): trigger feature ↦
direction ↦ (dependent feature ↦ propagation mode). -/
def featureConstraints : List (String × List (String × List (String × String))) :=
  [("acousticness",
     [("positive", [("energy", "soft"), ("instrumentalness", "increase")]),
      ("negative", [("energy", "flexible"), ("instrumentalness", "flexible")])]),
   ("energy",
     [("positive", [("valence", "increase"), ("tempo", "increase")]),
      ("negative", [("valence", "flexible"), ("tempo", "decrease")])]),
   ("valence",
     [("positive", [("energy", "increase"), ("instrumentalness", "flexible")]),
      ("negative", [("energy", "decrease"), ("acousticness", "increase")])])]

/-- `np.clip(x, -3, 3)`: `min(max(x, -3), 3)`, written with explicit
conditionals so that it evaluates by kernel reduction. -/
def clip3 (x : ℚ) : ℚ := if x ≤ -3 then -3 else if 3 ≤ x then 3 else x

theorem clip3_eq_min_max (x : ℚ) : clip3 x = min (max x (-3)) 3 := by
  unfold clip3
  rcases le_or_lt x (-3) with h | h
  · rw [if_pos h, max_eq_right h, min_eq_left (by norm_num)]
  · rw [if_neg (not_le.mpr h), max_eq_left h.le]
    rcases le_or_lt 3 x with h2 | h2
    · rw [if_pos h2, min_eq_right h2]
    · rw [if_neg (not_le.mpr h2), min_eq_left h2.le]

/-- Python dict read `d[k]` / `d.get(k)` on an ordered association list:
value of the first pair whose key is `k`. -/
def lookupStr {α : Type} (m : List (String × α)) (k : String) : Option α :=
  (m.find? (fun p => p.1 == k)).map Prod.snd

/-- Python `k in d`. -/
def hasKey {α : Type} (m : List (String × α)) (k : String) : Bool :=
  (lookupStr m k).isSome

/-- First pass of `adjust_mood_vector_with_constraints` (recsys.py lines
72-76): for every entry of the adjustment dict whose key is a feature
column, set that component to `clip(value + delta, -3, 3)`. -/
def primaryPass (base : List ℚ) (adjustments : List (String × ℚ)) : List ℚ :=
  adjustments.foldl (fun acc p =>
    if featureCols.contains p.1 then
      let idx := featureCols.indexOf p.1
      acc.set idx (clip3 (acc.getD idx 0 + p.2))
    else acc) base

/-- Body of the innermost loop of the second pass (recsys.py lines 84-101):
apply one constraint `(conflicting_feature, constraint_type)` for a trigger
delta `delta` to the current vector. -/
def applyConstraintCode (acc : List ℚ) (delta : ℚ) (cf ct : String) : List ℚ :=
  if ct = "soft" then
    if featureCols.contains cf then
      let idx := featureCols.indexOf cf
      acc.set idx (acc.getD idx 0 * (1/2))
    else acc
  else if ct = "increase" then
    if featureCols.contains cf then
      let idx := featureCols.indexOf cf
      acc.set idx (clip3 (acc.getD idx 0 + |delta| * (2/5)))
    else acc
  else if ct = "decrease" then
    if featureCols.contains cf then
      let idx := featureCols.indexOf cf
      acc.set idx (clip3 (acc.getD idx 0 - |delta| * (2/5)))
    else acc
  else acc

/-- Second pass of `adjust_mood_vector_with_constraints` (recsys.py lines
78-101): for every trigger with nonzero delta, walk the rule-set of its
direction and adjust every dependent the user did not explicitly adjust. -/
def propagationPass (vec : List ℚ) (adjustments : List (String × ℚ)) : List ℚ :=
  adjustments.foldl (fun acc p =>
    if hasKey featureConstraints p.1 ∧ p.2 ≠ 0 then
      let direction := if p.2 > 0 then "positive" else "negative"
      let constraints :=
        (lookupStr ((lookupStr featureConstraints p.1).getD []) direction).getD []
      constraints.foldl (fun acc2 q =>
        if lookupStr adjustments q.1 = none ∨ lookupStr adjustments q.1 = some 0 then
          applyConstraintCode acc2 p.2 q.1 q.2
        else acc2) acc
    else acc) vec

/-- `adjust_mood_vector_with_constraints` (recsys.py lines 68-103). -/
def adjustMoodVectorWithConstraints (base : List ℚ)
    (adjustments : List (String × ℚ)) : List ℚ :=
  propagationPass (primaryPass base adjustments) adjustments

/-! ## Generic list and fold helper lemmas -/

/-- A property preserved by every step of a fold is preserved by the fold. -/
theorem foldlPreserve {α β : Type} {P : α → Prop} {f : α → β → α}
    (hf : ∀ acc p, P acc → P (f acc p)) :
    ∀ (l : List β) (init : α), P init → P (l.foldl f init)
  | [], _, h => h
  | _ :: t, init, h => foldlPreserve hf t _ (hf init _ h)

/-- If every step of a fold fixes the accumulator `b`, the fold returns `b`. -/
theorem foldlFixed {α β : Type} {f : α → β → α} {b : α} :
    ∀ {l : List β}, (∀ p ∈ l, f b p = b) → List.foldl f b l = b
  | [], _ => rfl
  | p :: t, h => by
      have hp := h p (List.mem_cons_self p t)
      simpa [List.foldl_cons, hp] using
        foldlFixed (fun q hq => h q (List.mem_cons_of_mem p hq))

/-- A predicate holding on every element and on the default holds on `getD`. -/
theorem getD_prop {α : Type} {P : α → Prop} {l : List α} {d : α}
    (hl : ∀ x ∈ l, P x) (hd : P d) (i : ℕ) : P (l.getD i d) := by
  rw [List.getD_eq_getElem?_getD]
  rcases h : l[i]? with _ | x
  · exact hd
  · exact hl x (List.getElem?_mem h)

/-- A predicate holding on every element and on the new value holds on every
element of `l.set i v`. -/
theorem set_prop {α : Type} {P : α → Prop} {l : List α} {v : α}
    (hl : ∀ x ∈ l, P x) (hv : P v) (i : ℕ) : ∀ x ∈ l.set i v, P x := by
  intro x hx
  rcases List.mem_or_eq_of_mem_set hx with h | rfl
  · exact hl x h
  · exact hv

/-- Writing back the element already at a position leaves the list unchanged. -/
theorem set_getD_self {α : Type} {d : α} :
    ∀ (l : List α) (i : ℕ), l.set i (l.getD i d) = l
  | [], _ => rfl
  | _ :: _, 0 => rfl
  | x :: t, i + 1 => by simpa [List.set, List.getD] using set_getD_self t i

/-! ## Range and identity lemmas for the constraint engine -/

/-- Every component of the vector lies in the saturation band `[-3, 3]`. -/
def InBand (l : List ℚ) : Prop := ∀ x ∈ l, -3 ≤ x ∧ x ≤ 3

theorem clip3_band (x : ℚ) : -3 ≤ clip3 x ∧ clip3 x ≤ 3 := by
  unfold clip3
  split
  next => exact ⟨le_refl _, by norm_num⟩
  next h =>
    split
    next => exact ⟨by norm_num, le_refl _⟩
    next h2 => exact ⟨(not_le.mp h).le, (not_le.mp h2).le⟩

theorem clip3_of_band {x : ℚ} (h1 : -3 ≤ x) (h2 : x ≤ 3) : clip3 x = x := by
  unfold clip3
  split
  next h => exact (le_antisymm h h1).symm
  next =>
    split
    next h2' => exact (le_antisymm h2 h2').symm
    next => rfl

theorem primaryPass_band {base : List ℚ} (hb : InBand base)
    (adjustments : List (String × ℚ)) : InBand (primaryPass base adjustments) := by
  refine foldlPreserve (P := InBand) (fun acc p hacc => ?_) adjustments base hb
  dsimp only
  split
  · exact set_prop hacc (clip3_band _) _
  · exact hacc

theorem applyConstraintCode_band {acc : List ℚ} (hacc : InBand acc)
    (delta : ℚ) (cf ct : String) : InBand (applyConstraintCode acc delta cf ct) := by
  unfold applyConstraintCode
  have hgd : -3 ≤ acc.getD (featureCols.indexOf cf) 0 ∧
      acc.getD (featureCols.indexOf cf) 0 ≤ 3 :=
    getD_prop hacc (by norm_num) _
  split
  · split
    · exact set_prop hacc ⟨by linarith [hgd.1], by linarith [hgd.2]⟩ _
    · exact hacc
  · split
    · split
      · exact set_prop hacc (clip3_band _) _
      · exact hacc
    · split
      · split
        · exact set_prop hacc (clip3_band _) _
        · exact hacc
      · exact hacc

theorem propagationPass_band {vec : List ℚ} (hv : InBand vec)
    (adjustments : List (String × ℚ)) : InBand (propagationPass vec adjustments) := by
  refine foldlPreserve (P := InBand) (fun acc p hacc => ?_) adjustments vec hv
  dsimp only
  split
  · exact foldlPreserve (P := InBand)
      (fun acc2 q hacc2 => by
        try dsimp only
        split
        · exact applyConstraintCode_band hacc2 _ _ _
        · exact hacc2) _ acc hacc
  · exact hacc

theorem propagationPass_zeroDeltas (vec : List ℚ)
    {adjustments : List (String × ℚ)} (hz : ∀ p ∈ adjustments, p.2 = 0) :
    propagationPass vec adjustments = vec := by
  refine foldlFixed (fun p hp => ?_)
  have := hz p hp
  simp [this]

theorem primaryPass_zeroDeltas {base : List ℚ} (hb : InBand base)
    {adjustments : List (String × ℚ)} (hz : ∀ p ∈ adjustments, p.2 = 0) :
    primaryPass base adjustments = base := by
  refine foldlFixed (fun p hp => ?_)
  have hp0 := hz p hp
  dsimp only
  split
  · rw [hp0, add_zero]
    have hgd := getD_prop (P := fun x => -3 ≤ x ∧ x ≤ 3) hb
      (by norm_num : -3 ≤ (0 : ℚ) ∧ (0 : ℚ) ≤ 3) (featureCols.indexOf p.1)
    rw [clip3_of_band hgd.1 hgd.2, set_getD_self]
  · rfl

/-! ## Claim C1 -/

/-- C1 (counterexample to the claim as stated): the component `10` at index 4
(liveness) of the base vector is untouched by both passes of
`adjust_mood_vector_with_constraints`, so the output has a component outside
`[-3, 3]`. -/
theorem adjust_band_cex :
    ¬ (∀ x ∈ adjustMoodVectorWithConstraints
        [0, 0, 0, 0, 10, 0, 0, 0, 0] [("danceability", 1)], -3 ≤ x ∧ x ≤ 3) := by
  intro h
  have h10 := h 10 (by with_unfolding_all decide)
  linarith [h10.2]

/-- C1 (amended): if every component of the base vector lies in `[-3, 3]`,
then every component of `adjust_mood_vector_with_constraints(base, deltas)`
lies in `[-3, 3]`, for every delta map. -/
theorem adjust_band (base : List ℚ) (adjustments : List (String × ℚ))
    (hb : ∀ x ∈ base, -3 ≤ x ∧ x ≤ 3) :
    ∀ x ∈ adjustMoodVectorWithConstraints base adjustments, -3 ≤ x ∧ x ≤ 3 :=
  propagationPass_band (primaryPass_band hb _) _

/-- Witness for C1 at a concrete input. -/
theorem adjust_band_witness :
    -3 ≤ (adjustMoodVectorWithConstraints
        [0, 0, 0, 0, 0, 0, 0, 0, 0] [("energy", 5)]).getD 2 0 ∧
    (adjustMoodVectorWithConstraints
        [0, 0, 0, 0, 0, 0, 0, 0, 0] [("energy", 5)]).getD 2 0 ≤ 3 :=
  adjust_band [0, 0, 0, 0, 0, 0, 0, 0, 0] [("energy", 5)]
    (by with_unfolding_all decide)
    ((adjustMoodVectorWithConstraints
        [0, 0, 0, 0, 0, 0, 0, 0, 0] [("energy", 5)]).getD 2 0)
    (by with_unfolding_all decide)

/-! ## Claim C2 -/

/-- C2 (counterexample to the claim as stated): the delta map
`{"energy": 0}` is all-zero, yet the primary pass still clips the energy
component `5` of the base vector to `3`, so the engine is not an identity. -/
theorem adjust_zero_cex :
    (∀ p ∈ [(("energy" : String), (0 : ℚ))], p.2 = 0) ∧
    adjustMoodVectorWithConstraints [0, 0, 5, 0, 0, 0, 0, 0, 0] [("energy", 0)]
      ≠ [0, 0, 5, 0, 0, 0, 0, 0, 0] := by
  constructor
  · with_unfolding_all decide
  · with_unfolding_all decide

/-- C2 (amended): if every delta in the adjustment map is zero and every
component of the base vector lies in `[-3, 3]`, then
`adjust_mood_vector_with_constraints(base, deltas)` equals `base` exactly.
(The primary pass touches — clips — every feature present in the map, even
those with zero delta, so the extra band hypothesis is needed.) -/
theorem adjust_zero (base : List ℚ) (adjustments : List (String × ℚ))
    (hz : ∀ p ∈ adjustments, p.2 = 0)
    (hb : ∀ x ∈ base, -3 ≤ x ∧ x ≤ 3) :
    adjustMoodVectorWithConstraints base adjustments = base := by
  unfold adjustMoodVectorWithConstraints
  rw [primaryPass_zeroDeltas hb hz, propagationPass_zeroDeltas base hz]

/-- Witness for C2 at a concrete input. -/
theorem adjust_zero_witness :
    adjustMoodVectorWithConstraints [0, 0, 1, 0, 0, 0, 0, 0, 0]
      [("energy", 0), ("valence", 0)] = [0, 0, 1, 0, 0, 0, 0, 0, 0] :=
  adjust_zero _ _ (by with_unfolding_all decide) (by with_unfolding_all decide)

/-! ## Spec-shaped propagation pass (for claim C6)

`modeApplySpec` and `propagationPassSpec` are transcribed from the words of
spec §4.6 step 2 (not from the code); claim C6 is settled by proving the
code's second pass extensionally equal to them. -/

/-- Spec §4.6 step 2 modes: `soft` halves the dependent's current value,
`increase` adds `|trigger delta| * 0.4` then clips, `decrease` subtracts
`|trigger delta| * 0.4` then clips; any other mode leaves it unchanged. -/
def modeApplySpec (acc : List ℚ) (dmag : ℚ) (dep mode : String) : List ℚ :=
  let idx := featureCols.indexOf dep
  if mode = "soft" then acc.set idx (acc.getD idx 0 * (1/2))
  else if mode = "increase" then acc.set idx (clip3 (acc.getD idx 0 + dmag * (2/5)))
  else if mode = "decrease" then acc.set idx (clip3 (acc.getD idx 0 - dmag * (2/5)))
  else acc

/-- Spec §4.6 step 2: for every trigger with nonzero delta, look up the
direction rule-set in the constraint table and, for every dependent whose
delta is absent or zero in the original input map, apply the mode with the
trigger's absolute delta; effects accumulate in map iteration order. -/
def propagationPassSpec (vec : List ℚ) (deltas : List (String × ℚ)) : List ℚ :=
  deltas.foldl (fun acc (p : String × ℚ) =>
    if p.2 ≠ 0 then
      match lookupStr featureConstraints p.1 with
      | none => acc
      | some dirs =>
        let ruleSet :=
          (lookupStr dirs (if p.2 > 0 then "positive" else "negative")).getD []
        ruleSet.foldl (fun acc2 q =>
          if lookupStr deltas q.1 = none ∨ lookupStr deltas q.1 = some 0 then
            modeApplySpec acc2 (|p.2|) q.1 q.2
          else acc2) acc
    else acc) vec

theorem lookupStr_nil {α : Type} (f : String) : lookupStr ([] : List (String × α)) f = none := rfl

theorem lookupStr_cons {α : Type} (k : String) (v : α) (m : List (String × α)) (f : String) :
    lookupStr ((k, v) :: m) f = if k = f then some v else lookupStr m f := by
  by_cases h : k = f
  · rw [if_pos h]
    unfold lookupStr
    rw [List.find?_cons_of_pos _ (by simpa using h)]
    rfl
  · rw [if_neg h]
    unfold lookupStr
    rw [List.find?_cons_of_neg _ (by simpa using h)]

/-- `applyConstraintCode` on a genuine feature column agrees with the
spec-shaped mode application at the trigger's absolute delta. -/
theorem applyConstraintCode_eq_mode (acc : List ℚ) (d : ℚ) (cf ct : String)
    (hcf : featureCols.contains cf = true) :
    applyConstraintCode acc d cf ct = modeApplySpec acc (|d|) cf ct := by
  unfold applyConstraintCode modeApplySpec
  dsimp only
  by_cases h1 : ct = "soft"
  · rw [if_pos h1, if_pos h1, if_pos hcf]
  · rw [if_neg h1, if_neg h1]
    by_cases h2 : ct = "increase"
    · rw [if_pos h2, if_pos h2, if_pos hcf]
    · rw [if_neg h2, if_neg h2]
      by_cases h3 : ct = "decrease"
      · rw [if_pos h3, if_pos h3, if_pos hcf]
      · rw [if_neg h3, if_neg h3]

theorem featureConstraints_lookup (f : String) :
    lookupStr featureConstraints f =
      if f = "acousticness" then
        some [("positive", [("energy", "soft"), ("instrumentalness", "increase")]),
              ("negative", [("energy", "flexible"), ("instrumentalness", "flexible")])]
      else if f = "energy" then
        some [("positive", [("valence", "increase"), ("tempo", "increase")]),
              ("negative", [("valence", "flexible"), ("tempo", "decrease")])]
      else if f = "valence" then
        some [("positive", [("energy", "increase"), ("instrumentalness", "flexible")]),
              ("negative", [("energy", "decrease"), ("acousticness", "increase")])]
      else none := by
  by_cases h1 : f = "acousticness"
  · subst h1; with_unfolding_all decide
  · by_cases h2 : f = "energy"
    · subst h2; with_unfolding_all decide
    · by_cases h3 : f = "valence"
      · subst h3; with_unfolding_all decide
      · rw [if_neg h1, if_neg h2, if_neg h3]
        unfold featureConstraints
        rw [lookupStr_cons, lookupStr_cons, lookupStr_cons, lookupStr_nil,
            if_neg (fun h => h1 h.symm), if_neg (fun h => h2 h.symm),
            if_neg (fun h => h3 h.symm)]

/-- Every dependent feature appearing in any rule-set of the constraint
table is a genuine feature column. -/
theorem ruleSet_mem_featureCols {p1 : String}
    {dirs : List (String × List (String × String))}
    (hfc : lookupStr featureConstraints p1 = some dirs) (direction : String) :
    ∀ q ∈ (lookupStr dirs direction).getD [], featureCols.contains q.1 = true := by
  have h := featureConstraints_lookup p1
  rw [hfc] at h
  split at h
  · injection h with h2
    subst h2
    rw [lookupStr_cons, lookupStr_cons, lookupStr_nil]
    split
    · with_unfolding_all decide
    · split
      · with_unfolding_all decide
      · with_unfolding_all decide
  · split at h
    · injection h with h2
      subst h2
      rw [lookupStr_cons, lookupStr_cons, lookupStr_nil]
      split
      · with_unfolding_all decide
      · split
        · with_unfolding_all decide
        · with_unfolding_all decide
    · split at h
      · injection h with h2
        subst h2
        rw [lookupStr_cons, lookupStr_cons, lookupStr_nil]
        split
        · with_unfolding_all decide
        · split
          · with_unfolding_all decide
          · with_unfolding_all decide
      · simp at h

theorem propagationPass_eq_spec (vec : List ℚ) (deltas : List (String × ℚ)) :
    propagationPass vec deltas = propagationPassSpec vec deltas := by
  unfold propagationPass propagationPassSpec
  apply List.foldl_ext
  intro acc p _
  by_cases hz : p.2 = 0
  · rw [if_neg (fun h : hasKey featureConstraints p.1 = true ∧ p.2 ≠ 0 => h.2 hz),
        if_neg (fun h : p.2 ≠ 0 => h hz)]
  · rcases hfc : lookupStr featureConstraints p.1 with _ | dirs
    · have hk : hasKey featureConstraints p.1 = false := by
        simp [hasKey, hfc]
      rw [if_neg (fun h => by simp [hk] at h), if_pos hz]
    · have hk : hasKey featureConstraints p.1 = true := by
        simp [hasKey, hfc]
      rw [if_pos ⟨hk, hz⟩, if_pos hz]
      simp only [hfc, Option.getD_some]
      apply List.foldl_ext
      intro acc2 q hq
      have hcq := ruleSet_mem_featureCols hfc
        (if p.2 > 0 then "positive" else "negative") q hq
      by_cases hcond : lookupStr deltas q.1 = none ∨ lookupStr deltas q.1 = some 0
      · rw [if_pos hcond, if_pos hcond, applyConstraintCode_eq_mode _ _ _ _ hcq]
      · rw [if_neg hcond, if_neg hcond]

/-! ## Claim C6 -/

/-- C6 (confirmed): the propagation pass of
`adjust_mood_vector_with_constraints` behaves exactly as spec §4.6 step 2
describes it — for every trigger with nonzero delta and every dependent of
the trigger's direction rule-set whose delta is absent or zero in the
original input map, `soft` halves the dependent's current value, `increase`
adds `|trigger delta| * 0.4` then clips to [-3, 3], `decrease` subtracts
`|trigger delta| * 0.4` then clips, and the effects accumulate in the delta
map's iteration order (the fold over `deltas`). -/
theorem adjust_propagation_matches_spec (base : List ℚ)
    (deltas : List (String × ℚ)) :
    adjustMoodVectorWithConstraints base deltas
      = propagationPassSpec (primaryPass base deltas) deltas := by
  unfold adjustMoodVectorWithConstraints
  rw [propagationPass_eq_spec]

/-! ## Claim C10 -/

/-- The mode string `flexible` matches none of the three handled branches of
the propagation pass, so applying such a constraint is a no-op. -/
theorem applyConstraintCode_flexible (acc : List ℚ) (delta : ℚ) (cf : String) :
    applyConstraintCode acc delta cf "flexible" = acc := by
  unfold applyConstraintCode
  rw [if_neg (by decide), if_neg (by decide), if_neg (by decide)]

/-- A negative acousticness delta triggers only `flexible` rules, so the
whole propagation pass is a no-op on any vector. -/
theorem propagationPass_acousticness_neg (vec : List ℚ) {d : ℚ} (hd : d < 0) :
    propagationPass vec [("acousticness", d)] = vec := by
  unfold propagationPass
  rw [List.foldl_cons, List.foldl_nil,
    if_pos ⟨(by with_unfolding_all decide :
      hasKey featureConstraints "acousticness" = true), ne_of_lt hd⟩]
  dsimp only
  rw [if_neg (not_lt.mpr hd.le)]
  rw [show (lookupStr ((lookupStr featureConstraints "acousticness").getD [])
        "negative").getD []
      = [("energy", "flexible"), ("instrumentalness", "flexible")] from rfl]
  rw [List.foldl_cons, List.foldl_cons, List.foldl_nil]
  rw [if_pos (Or.inl (by rw [lookupStr_cons, if_neg (by decide)]; rfl)),
      applyConstraintCode_flexible,
      if_pos (Or.inl (by rw [lookupStr_cons, if_neg (by decide)]; rfl)),
      applyConstraintCode_flexible]

/-- The primary pass for a map touching only acousticness (index 0) leaves
every other component unchanged. -/
theorem primaryPass_acousticness_getD (base : List ℚ) (d : ℚ) (i : ℕ)
    (hi : i ≠ 0) :
    (primaryPass base [("acousticness", d)]).getD i 0 = base.getD i 0 := by
  unfold primaryPass
  rw [List.foldl_cons, List.foldl_nil]
  dsimp only
  rw [if_pos (by decide : featureCols.contains "acousticness" = true)]
  rw [show List.indexOf "acousticness" featureCols = 0 from rfl]
  simp [List.getD_eq_getElem?_getD, List.getElem?_set_ne (Ne.symm hi)]

/-- C10 (confirmed): the constraint table assigns the mode `flexible` (a
fourth mode beyond soft/increase/decrease) to dependents of the rules
acousticness-negative, energy-negative (valence) and valence-positive
(instrumentalness); the propagation pass leaves a `flexible` dependent
unchanged, so in particular a negative acousticness delta propagates no
adjustment to the energy or instrumentalness components. -/
theorem flexible_mode_noop :
    (lookupStr ((lookupStr featureConstraints "acousticness").getD [])
        "negative"
      = some [("energy", "flexible"), ("instrumentalness", "flexible")]) ∧
    (lookupStr ((lookupStr featureConstraints "energy").getD []) "negative"
      = some [("valence", "flexible"), ("tempo", "decrease")]) ∧
    (lookupStr ((lookupStr featureConstraints "valence").getD []) "positive"
      = some [("energy", "increase"), ("instrumentalness", "flexible")]) ∧
    (∀ (acc : List ℚ) (delta : ℚ) (cf : String),
      applyConstraintCode acc delta cf "flexible" = acc) ∧
    (∀ (base : List ℚ) (d : ℚ), d < 0 →
      (adjustMoodVectorWithConstraints base [("acousticness", d)]).getD 2 0
        = base.getD 2 0 ∧
      (adjustMoodVectorWithConstraints base [("acousticness", d)]).getD 3 0
        = base.getD 3 0) := by
  refine ⟨by with_unfolding_all decide, by with_unfolding_all decide,
    by with_unfolding_all decide, applyConstraintCode_flexible, ?_⟩
  intro base d hd
  unfold adjustMoodVectorWithConstraints
  rw [propagationPass_acousticness_neg _ hd]
  exact ⟨primaryPass_acousticness_getD base d 2 (by decide),
    primaryPass_acousticness_getD base d 3 (by decide)⟩

/-- Witness for C10 at a concrete input. -/
theorem flexible_mode_noop_witness :
    (adjustMoodVectorWithConstraints [1, 1, 1, 1, 1, 1, 1, 1, 1]
        [("acousticness", -1)]).getD 2 0
      = ([1, 1, 1, 1, 1, 1, 1, 1, 1] : List ℚ).getD 2 0 :=
  (flexible_mode_noop.2.2.2.2 [1, 1, 1, 1, 1, 1, 1, 1, 1] (-1)
    (by norm_num)).1

/-! ## Feature matrix builder (claim C3) -/

/-- Column selection of `_build_feature_matrix` (recsys.py lines 52-58): the
dataframe column if present, else the `_norm` fallback for loudness/tempo,
else `none` (the feature is skipped). The dataframe is an association list
from column name to column values. -/
def selectColumn (df : List (String × List ℚ)) (col : String) : Option (List ℚ) :=
  if hasKey df col then lookupStr df col
  else if col = "loudness" then lookupStr df "loudness_norm"
  else if col = "tempo" then lookupStr df "tempo_norm"
  else none

/-- `_build_feature_matrix` (recsys.py lines 49-60): the list of selected
columns, in feature order, one per iteration of the loop that appends a
column when available (`np.column_stack` then packs them side by side). -/
def buildFeatureMatrix (df : List (String × List ℚ)) : List (List ℚ) :=
  featureCols.filterMap (selectColumn df)

/-- A feature counts as available when its column or its normalized
fallback is present. -/
def featureAvailable (df : List (String × List ℚ)) (col : String) : Bool :=
  hasKey df col
    || (col == "loudness" && hasKey df "loudness_norm")
    || (col == "tempo" && hasKey df "tempo_norm")

theorem selectColumn_isSome (df : List (String × List ℚ)) (col : String) :
    (selectColumn df col).isSome = featureAvailable df col := by
  unfold selectColumn featureAvailable hasKey
  by_cases h1 : (lookupStr df col).isSome = true
  · rw [if_pos h1, h1]
    simp
  · rw [if_neg h1]
    have h1' : (lookupStr df col).isSome = false := Bool.eq_false_iff.mpr h1
    by_cases h2 : col = "loudness"
    · subst h2
      rw [if_pos rfl, h1',
        show (("loudness" : String) == "loudness") = true from rfl,
        show (("loudness" : String) == "tempo") = false from rfl]
      simp
    · rw [if_neg h2]
      by_cases h3 : col = "tempo"
      · subst h3
        rw [if_pos rfl, h1',
          show (("tempo" : String) == "loudness") = false from rfl,
          show (("tempo" : String) == "tempo") = true from rfl]
        simp
      · rw [if_neg h3, h1', beq_eq_false_iff_ne.mpr h2, beq_eq_false_iff_ne.mpr h3]
        simp

theorem length_filterMap_eq_length_filter {α β : Type} (f : α → Option β) :
    ∀ l : List α,
      (l.filterMap f).length = (l.filter (fun a => (f a).isSome)).length
  | [] => rfl
  | a :: t => by
      rcases h : f a with _ | b <;>
        simp [List.filterMap_cons, List.filter_cons, h,
          length_filterMap_eq_length_filter f t]

/-- C3 (amended): building the feature matrix over a catalog in which some
of the 9 declared features (or their normalized fallbacks) are absent never
fails — there is no MissingFeatureError in the code — and silently yields a
matrix with exactly the available columns, hence narrower than 9 columns
whenever a feature is missing. -/
theorem buildFeatureMatrix_silent (df : List (String × List ℚ)) :
    (buildFeatureMatrix df).length
        = (featureCols.filter (featureAvailable df)).length ∧
    (buildFeatureMatrix df).length ≤ 9 := by
  have h1 : (buildFeatureMatrix df).length
      = (featureCols.filter (featureAvailable df)).length := by
    rw [buildFeatureMatrix, length_filterMap_eq_length_filter]
    congr 1
    exact List.filter_congr (fun a _ => selectColumn_isSome df a)
  exact ⟨h1, h1 ▸ (List.length_filter_le _ _)⟩

/-- C3 (counterexample to the claim as stated): a catalog exposing 8 of the
9 features (liveness entirely absent, and it has no normalized fallback)
builds an 8-column matrix with no error, so the matrix is silently narrower
than 9 columns. -/
theorem buildFeatureMatrix_cex :
    (buildFeatureMatrix
      [("acousticness", [0]), ("danceability", [0]), ("energy", [0]),
       ("instrumentalness", [0]), ("loudness", [0]), ("speechiness", [0]),
       ("tempo", [0]), ("valence", [0])]).length = 8 ∧ (8 : ℕ) ≠ 9 :=
  ⟨by with_unfolding_all decide, by decide⟩

/-! ## Feature normalizer (claim C4) -/

/-- pandas `Series.min()` of a column (0 only for the empty column, which
the normalizer is never applied to in the claims). -/
def seriesMin : List ℚ → ℚ
  | [] => 0
  | x :: xs => xs.foldl min x

/-- pandas `Series.max()` of a column. -/
def seriesMax : List ℚ → ℚ
  | [] => 0
  | x :: xs => xs.foldl max x

/-- `_normalize_features` (recsys.py lines 37-47) on a single column:
`(value - min) / (max - min)` per row.  When `max - min = 0` the float code
computes `0.0 / 0.0 = NaN`; the embedding makes that case explicit as
`none` instead of inheriting Lean's `x / 0 = 0` convention. -/
def normalizeSeries (xs : List ℚ) : List (Option ℚ) :=
  xs.map (fun x =>
    if seriesMax xs - seriesMin xs = 0 then none
    else some ((x - seriesMin xs) / (seriesMax xs - seriesMin xs)))

theorem foldl_min_le {l : List ℚ} :
    ∀ {a : ℚ}, l.foldl min a ≤ a ∧ ∀ x ∈ l, l.foldl min a ≤ x := by
  induction l with
  | nil => exact fun {a} => ⟨le_refl a, by simp⟩
  | cons y t ih =>
    intro a
    have h := ih (a := min a y)
    rw [List.foldl_cons]
    refine ⟨h.1.trans (min_le_left a y), ?_⟩
    intro x hx
    rcases List.mem_cons.mp hx with rfl | hx2
    · exact h.1.trans (min_le_right a x)
    · exact h.2 x hx2

theorem le_foldl_max {l : List ℚ} :
    ∀ {a : ℚ}, a ≤ l.foldl max a ∧ ∀ x ∈ l, x ≤ l.foldl max a := by
  induction l with
  | nil => exact fun {a} => ⟨le_refl a, by simp⟩
  | cons y t ih =>
    intro a
    have h := ih (a := max a y)
    rw [List.foldl_cons]
    refine ⟨(le_max_left a y).trans h.1, ?_⟩
    intro x hx
    rcases List.mem_cons.mp hx with rfl | hx2
    · exact (le_max_right a x).trans h.1
    · exact h.2 x hx2

theorem foldl_min_mem (l : List ℚ) : ∀ a : ℚ, l.foldl min a ∈ a :: l := by
  induction l with
  | nil => exact fun a => List.mem_singleton.mpr rfl
  | cons z t ih =>
    intro a
    rw [List.foldl_cons]
    rcases min_choice a z with h | h <;> rw [h]
    · rcases List.mem_cons.mp (ih a) with h2 | h2
      · rw [h2]; exact List.mem_cons_self _ _
      · exact List.mem_cons_of_mem _ (List.mem_cons_of_mem _ h2)
    · exact List.mem_cons_of_mem _ (List.mem_cons.mpr (List.mem_cons.mp (ih z)))

theorem foldl_max_mem (l : List ℚ) : ∀ a : ℚ, l.foldl max a ∈ a :: l := by
  induction l with
  | nil => exact fun a => List.mem_singleton.mpr rfl
  | cons z t ih =>
    intro a
    rw [List.foldl_cons]
    rcases max_choice a z with h | h <;> rw [h]
    · rcases List.mem_cons.mp (ih a) with h2 | h2
      · rw [h2]; exact List.mem_cons_self _ _
      · exact List.mem_cons_of_mem _ (List.mem_cons_of_mem _ h2)
    · exact List.mem_cons_of_mem _ (List.mem_cons.mpr (List.mem_cons.mp (ih z)))

theorem seriesMin_le {xs : List ℚ} : ∀ x ∈ xs, seriesMin xs ≤ x := by
  intro x hx
  cases xs with
  | nil => cases hx
  | cons y t =>
    rcases List.mem_cons.mp hx with rfl | hx2
    · exact foldl_min_le.1
    · exact foldl_min_le.2 x hx2

theorem le_seriesMax {xs : List ℚ} : ∀ x ∈ xs, x ≤ seriesMax xs := by
  intro x hx
  cases xs with
  | nil => cases hx
  | cons y t =>
    rcases List.mem_cons.mp hx with rfl | hx2
    · exact le_foldl_max.1
    · exact le_foldl_max.2 x hx2

theorem seriesMin_mem {xs : List ℚ} (hne : xs ≠ []) : seriesMin xs ∈ xs := by
  cases xs with
  | nil => exact absurd rfl hne
  | cons y t => exact foldl_min_mem t y

theorem seriesMax_mem {xs : List ℚ} (hne : xs ≠ []) : seriesMax xs ∈ xs := by
  cases xs with
  | nil => exact absurd rfl hne
  | cons y t => exact foldl_max_mem t y

/-! ## Claim C4 -/

/-- C4 (amended): on a nonempty column with a single distinct value the
normalizer computes `0/0`, i.e. NaN (`none` in the embedding), for every
row — not the value 0 — and never raises; on a column with at least two
distinct values every normalized value is defined and lies in [0, 1].
The NaN stays in the derived `_norm` column and never reaches the feature
matrix: the matrix builder selects the raw column whenever it is present
(third conjunct), and `_normalize_features` only creates a `_norm` column
when the raw column is present. -/
theorem normalizeSeries_props :
    (∀ xs : List ℚ, xs ≠ [] →
      ((∀ x ∈ xs, ∀ y ∈ xs, x = y) →
        normalizeSeries xs = xs.map (fun _ => none)) ∧
      ((∃ x ∈ xs, ∃ y ∈ xs, x ≠ y) →
        ∀ o ∈ normalizeSeries xs, ∃ r : ℚ, o = some r ∧ 0 ≤ r ∧ r ≤ 1)) ∧
    (∀ (df : List (String × List ℚ)) (col : String), hasKey df col = true →
      selectColumn df col = lookupStr df col) := by
  refine ⟨fun xs hne => ?_, fun df col h => by rw [selectColumn, if_pos h]⟩
  constructor
  · intro hall
    have heq : seriesMax xs - seriesMin xs = 0 :=
      sub_eq_zero.mpr (hall _ (seriesMax_mem hne) _ (seriesMin_mem hne))
    unfold normalizeSeries
    simp [heq]
  · intro hdist o ho
    have hlt : 0 < seriesMax xs - seriesMin xs := by
      rcases hdist with ⟨x, hx, y, hy, hxy⟩
      rcases lt_or_le (seriesMin xs) (seriesMax xs) with h | h
      · linarith
      · have hx1 := seriesMin_le x hx
        have hx2 := le_seriesMax x hx
        have hy1 := seriesMin_le y hy
        have hy2 := le_seriesMax y hy
        exact absurd (by linarith : x = y) hxy
    have hne0 : seriesMax xs - seriesMin xs ≠ 0 := ne_of_gt hlt
    unfold normalizeSeries at ho
    simp only [if_neg hne0] at ho
    rcases List.mem_map.mp ho with ⟨x, hx, rfl⟩
    refine ⟨_, rfl, ?_, ?_⟩
    · exact div_nonneg (by linarith [seriesMin_le x hx]) hlt.le
    · rw [div_le_one hlt]
      linarith [le_seriesMax x hx]

/-- C4 (counterexample to the claim as stated): the degenerate column
`[5, 5]` has a single distinct value; the normalizer computes `0/0` (NaN,
`none`) for both rows rather than the claimed 0. -/
theorem normalizeSeries_cex :
    normalizeSeries [5, 5] = [none, none] ∧
    normalizeSeries [5, 5] ≠ [some 0, some 0] :=
  ⟨by with_unfolding_all decide, by with_unfolding_all decide⟩

/-- Witness for C4 at a concrete input. -/
theorem normalizeSeries_witness :
    ∃ r : ℚ, (normalizeSeries [1, 3]).getD 1 none = some r ∧ 0 ≤ r ∧ r ≤ 1 :=
  (normalizeSeries_props.1 [1, 3] (by decide)).2
    ⟨1, by decide, 3, by decide, by with_unfolding_all decide⟩
    ((normalizeSeries [1, 3]).getD 1 none) (by with_unfolding_all decide)

/-! ## Mood vector aggregator (claim C8) -/

/-- `np.zeros(len(self.feature_cols))`. -/
def zeroVec : List ℚ := List.replicate featureCols.length 0

/-- Component-wise vector addition. -/
def vecAdd (u v : List ℚ) : List ℚ := List.zipWith (· + ·) u v

/-- numpy column-wise sum of a list of rows (of width 9). -/
def sumRows (vs : List (List ℚ)) : List ℚ := vs.foldr vecAdd zeroVec

/-- `get_playlist_mood_vector` (recsys.py lines 62-66): zero vector of
length `len(feature_cols)` for the empty playlist, otherwise
`self.feature_matrix_scaled[track_indices].mean(axis=0)` — the column-wise
mean of the rows at the given indices, repetitions included. -/
def getPlaylistMoodVector (matrixScaled : List (List ℚ))
    (trackIndices : List ℕ) : List ℚ :=
  if trackIndices = [] then zeroVec
  else
    (sumRows (trackIndices.map (fun i => matrixScaled.getD i []))).map
      (fun x => x / (trackIndices.length : ℚ))

theorem vecAdd_left_comm : ∀ a b c : List ℚ,
    vecAdd a (vecAdd b c) = vecAdd b (vecAdd a c)
  | [], b, c => by simp [vecAdd]
  | a, [], c => by simp [vecAdd]
  | x :: a, y :: b, c => by
      cases c with
      | nil => simp [vecAdd]
      | cons z c =>
        show (x + (y + z)) :: vecAdd a (vecAdd b c)
          = (y + (x + z)) :: vecAdd b (vecAdd a c)
        rw [add_left_comm, vecAdd_left_comm a b c]

theorem sumRows_perm {vs vs' : List (List ℚ)} (h : vs.Perm vs') :
    sumRows vs = sumRows vs' := by
  induction h with
  | nil => rfl
  | cons x _ ih =>
    show vecAdd x (sumRows _) = vecAdd x (sumRows _)
    rw [ih]
  | swap x y l =>
    show vecAdd y (vecAdd x (sumRows l)) = vecAdd x (vecAdd y (sumRows l))
    exact vecAdd_left_comm y x (sumRows l)
  | trans _ _ ih1 ih2 => exact ih1.trans ih2

theorem vecAdd_replicate_zero :
    ∀ (u : List ℚ) (n : ℕ), u.length ≤ n →
      List.zipWith (· + ·) u (List.replicate n 0) = u := by
  intro u
  induction u with
  | nil => intro n _; simp
  | cons x t ih =>
    intro n hn
    cases n with
    | zero => simp at hn
    | succ m =>
      rw [List.replicate_succ, List.zipWith_cons_cons, add_zero,
        ih m (Nat.le_of_succ_le_succ hn)]

theorem vecAdd_zeroVec {u : List ℚ} (h : u.length = 9) :
    vecAdd u zeroVec = u :=
  vecAdd_replicate_zero u featureCols.length (by rw [h]; decide)

/-! ## Claim C8 -/

/-- C8 (confirmed): `get_playlist_mood_vector` returns the zero vector of
length 9 on the empty index list; on `[i]` it returns the scaled-matrix row
at `i`; it is invariant under permutation of the index list; and repeated
indices enter the column-wise mean with multiplicity (shown for `[i, i, j]`,
whose mean is `(row i + row i + row j) / 3`). -/
theorem playlistMoodVector_props :
    (∀ m : List (List ℚ), getPlaylistMoodVector m [] = List.replicate 9 0) ∧
    (∀ (m : List (List ℚ)) (i : ℕ), (m.getD i []).length = 9 →
      getPlaylistMoodVector m [i] = m.getD i []) ∧
    (∀ (m : List (List ℚ)) (idxs idxs' : List ℕ), idxs.Perm idxs' →
      getPlaylistMoodVector m idxs = getPlaylistMoodVector m idxs') ∧
    (∀ (m : List (List ℚ)) (i j : ℕ),
      (m.getD i []).length = 9 → (m.getD j []).length = 9 →
      getPlaylistMoodVector m [i, i, j]
        = (vecAdd (m.getD i []) (vecAdd (m.getD i []) (m.getD j []))).map
            (fun x => x / 3)) := by
  refine ⟨fun m => rfl, ?_, ?_, ?_⟩
  · intro m i hlen
    unfold getPlaylistMoodVector
    rw [if_neg (by simp)]
    show ((sumRows [m.getD i []]).map fun x => x / ((1 : ℕ) : ℚ))
      = m.getD i []
    have h1 : sumRows [m.getD i []] = m.getD i [] := vecAdd_zeroVec hlen
    rw [h1, Nat.cast_one]
    simp
  · intro m idxs idxs' hperm
    rcases eq_or_ne idxs [] with rfl | hne
    · rw [hperm.nil_eq.symm]
    · have hne' : idxs' ≠ [] := fun h => hne ((h ▸ hperm).eq_nil)
      unfold getPlaylistMoodVector
      rw [if_neg hne, if_neg hne', hperm.length_eq,
        sumRows_perm (hperm.map (fun i => m.getD i []))]
  · intro m i j hi hj
    unfold getPlaylistMoodVector
    rw [if_neg (by simp)]
    show ((sumRows [m.getD i [], m.getD i [], m.getD j []]).map
        fun x => x / ((3 : ℕ) : ℚ)) = _
    have h1 : sumRows [m.getD i [], m.getD i [], m.getD j []]
        = vecAdd (m.getD i []) (vecAdd (m.getD i []) (m.getD j [])) := by
      show vecAdd _ (vecAdd _ (vecAdd _ zeroVec)) = _
      rw [vecAdd_zeroVec hj]
    rw [h1]
    norm_num

/-- Witness for C8 at a concrete input. -/
theorem playlistMoodVector_witness :
    getPlaylistMoodVector [[1, 2, 3, 4, 5, 6, 7, 8, 9]] [0]
      = ([[1, 2, 3, 4, 5, 6, 7, 8, 9]] : List (List ℚ)).getD 0 [] :=
  playlistMoodVector_props.2.1 [[1, 2, 3, 4, 5, 6, 7, 8, 9]] 0 (by decide)

/-! ## Mood keyword extractor (claim C9) -/

/-- Does `needle` start at the head of `hay`? -/
def listStarts : List Char → List Char → Bool
  | [], _ => true
  | _ :: _, [] => false
  | a :: as, b :: bs => a == b && listStarts as bs

/-- Does `needle` occur contiguously anywhere in `hay`?  (Python
`needle in hay`; the empty needle always matches.) -/
def listOccurs (needle : List Char) : List Char → Bool
  | [] => listStarts needle []
  | b :: bs => listStarts needle (b :: bs) || listOccurs needle bs

/-- Python `keyword in msg` on strings (unanchored substring test). -/
def strOccurs (needle msg : String) : Bool :=
  listOccurs needle.toList msg.toList

/-- `self.mood_rules` (mood_extractor.py lines 7-24). -/
def moodRules : List (String × List (String × ℚ)) :=
  [("energetic", [("energy", 7/10), ("danceability", 6/10), ("valence", 4/10),
     ("tempo", 5/10)]),
   ("sad", [("valence", -8/10), ("energy", -5/10), ("acousticness", 3/10)]),
   ("acoustic", [("acousticness", 7/10), ("energy", -3/10),
     ("instrumentalness", 2/10)]),
   ("chill", [("energy", -6/10), ("tempo", -5/10), ("acousticness", 4/10)]),
   ("dance", [("danceability", 8/10), ("energy", 7/10), ("tempo", 5/10)]),
   ("electronic", [("acousticness", -8/10), ("energy", 6/10),
     ("instrumentalness", 5/10)]),
   ("upbeat", [("energy", 7/10), ("valence", 7/10), ("tempo", 4/10)]),
   ("melancholic", [("valence", -7/10), ("energy", -4/10),
     ("acousticness", 5/10)]),
   ("relaxing", [("energy", -7/10), ("valence", 3/10), ("loudness", -4/10)]),
   ("happy", [("valence", 8/10), ("energy", 5/10), ("danceability", 5/10)]),
   ("slow", [("tempo", -6/10), ("energy", -4/10)]),
   ("fast", [("tempo", 6/10), ("energy", 5/10)]),
   ("loud", [("loudness", 5/10), ("energy", 4/10)]),
   ("quiet", [("loudness", -6/10), ("energy", -3/10)]),
   ("instrumental", [("instrumentalness", 8/10), ("speechiness", -5/10)]),
   ("vocal", [("instrumentalness", -6/10), ("speechiness", 4/10)])]

/-- Key order of the adjustment dict initialized at mood_extractor.py lines
30-33 (it differs from `feature_cols` order). -/
def adjustmentKeys : List String :=
  ["energy", "danceability", "valence", "acousticness",
   "instrumentalness", "speechiness", "liveness", "loudness", "tempo"]

/-- The all-zero adjustment dict (mood_extractor.py lines 30-33). -/
def defaultAdjustments : List (String × ℚ) :=
  adjustmentKeys.map (fun k => (k, 0))

/-- Python `d[k] = v` as performed by `dict.update`: overwrite in place if
the key exists (keeping its position), else append. -/
def setAssoc : List (String × ℚ) → String → ℚ → List (String × ℚ)
  | [], k, v => [(k, v)]
  | (k0, v0) :: t, k, v =>
      if k0 = k then (k0, v) :: t else (k0, v0) :: setAssoc t k v

/-- Python `adjustments.update(values)` (mood_extractor.py line 37). -/
def updateAssoc (acc : List (String × ℚ)) (vals : List (String × ℚ)) :
    List (String × ℚ) :=
  vals.foldl (fun a p => setAssoc a p.1 p.2) acc

/-- `MoodExtractor.extract` (mood_extractor.py lines 26-39): lower-case the
message, then for every rule (in table order) whose keyword occurs in it,
update the adjustment dict with that rule's per-feature deltas. -/
def extract (userMessage : String) : List (String × ℚ) :=
  moodRules.foldl (fun adjustments p =>
    if strOccurs p.1 userMessage.toLower then updateAssoc adjustments p.2
    else adjustments) defaultAdjustments

/-- Spec §4.5, transcribed from its words: the delta the extractor reports
for feature `f` is the one from the keyword matched last in table-iteration
order among the matching rules that set `f`, and 0 when no matching rule
sets `f`. -/
def lastMatchValue (userMessage : String) (f : String) : ℚ :=
  (((moodRules.filter (fun p => strOccurs p.1 userMessage.toLower)).reverse.findSome?
    (fun p => lookupStr p.2 f)).getD 0)

theorem lookupStr_append {α : Type} (l1 l2 : List (String × α)) (f : String) :
    lookupStr (l1 ++ l2) f = (lookupStr l1 f).or (lookupStr l2 f) := by
  unfold lookupStr
  rw [List.find?_append]
  rcases h : l1.find? (fun p => p.1 == f) with _ | p <;> rw [h] <;> rfl

theorem lookupStr_setAssoc (m : List (String × ℚ)) (k : String) (v : ℚ)
    (f : String) :
    lookupStr (setAssoc m k v) f = if k = f then some v else lookupStr m f := by
  induction m with
  | nil =>
    show lookupStr [(k, v)] f = _
    rw [lookupStr_cons, lookupStr_nil]
  | cons p t ih =>
    rcases p with ⟨k0, v0⟩
    by_cases h0 : k0 = k
    · subst h0
      show lookupStr
        (if k0 = k0 then (k0, v) :: t else (k0, v0) :: setAssoc t k0 v) f = _
      rw [if_pos rfl, lookupStr_cons, lookupStr_cons]
      by_cases hf : k0 = f
      · rw [if_pos hf, if_pos hf]
      · rw [if_neg hf, if_neg hf, if_neg hf]
    · show lookupStr (if k0 = k then _ else (k0, v0) :: setAssoc t k v) f = _
      rw [if_neg h0, lookupStr_cons, ih, lookupStr_cons]
      by_cases hf : k = f
      · rw [if_pos hf, if_pos hf,
          if_neg (show k0 ≠ f from fun hh => h0 (hh.trans hf.symm))]
      · rw [if_neg hf, if_neg hf]

theorem lookupStr_updateAssoc (vals : List (String × ℚ)) :
    ∀ (acc : List (String × ℚ)) (f : String),
      lookupStr (updateAssoc acc vals) f
        = (lookupStr vals.reverse f).or (lookupStr acc f) := by
  induction vals with
  | nil => intro acc f; simp [updateAssoc, lookupStr_nil, Option.or]
  | cons p t ih =>
    intro acc f
    show lookupStr (updateAssoc (setAssoc acc p.1 p.2) t) f = _
    rw [ih, lookupStr_setAssoc, List.reverse_cons, lookupStr_append]
    rcases h : lookupStr t.reverse f with _ | v
    · show (Option.none).or _ = ((Option.none).or _).or _
      rcases p with ⟨k, v0⟩
      rw [show lookupStr [(k, v0)] f = if k = f then some v0 else none by
        rw [lookupStr_cons, lookupStr_nil]]
      by_cases hf : k = f
      · rw [if_pos hf, if_pos hf]
        rfl
      · rw [if_neg hf, if_neg hf]
        rfl
    · rfl

theorem lookupStr_not_mem {α : Type} {l : List (String × α)} {f : String}
    (h : f ∉ l.map Prod.fst) : lookupStr l f = none := by
  induction l with
  | nil => rfl
  | cons p t ih =>
    rcases p with ⟨k, v⟩
    simp only [List.map_cons, List.mem_cons, not_or] at h
    rw [lookupStr_cons, if_neg (fun hh => h.1 hh.symm), ih h.2]

theorem lookupStr_reverse_nodup {α : Type} {l : List (String × α)}
    (h : (l.map Prod.fst).Nodup) (f : String) :
    lookupStr l.reverse f = lookupStr l f := by
  induction l with
  | nil => rfl
  | cons p t ih =>
    rcases p with ⟨k, v⟩
    rw [List.map_cons, List.nodup_cons] at h
    rw [List.reverse_cons, lookupStr_append, lookupStr_cons, ih h.2,
      lookupStr_cons, lookupStr_nil]
    by_cases hf : k = f
    · rw [if_pos hf, if_pos hf,
        lookupStr_not_mem (show f ∉ t.map Prod.fst from hf ▸ h.1)]
      rfl
    · rw [if_neg hf, if_neg hf]
      rcases lookupStr t f with _ | v <;> rfl

theorem findSome?_congr {α β : Type} {g1 g2 : α → Option β} :
    ∀ l : List α, (∀ a ∈ l, g1 a = g2 a) → l.findSome? g1 = l.findSome? g2
  | [], _ => rfl
  | a :: t, h => by
      rw [List.findSome?_cons, List.findSome?_cons,
        h a (List.mem_cons_self a t)]
      rcases g2 a with _ | b
      · exact findSome?_congr t (fun x hx => h x (List.mem_cons_of_mem a hx))
      · rfl

theorem lookupStr_extract_fold (msg f : String) :
    ∀ (rules : List (String × List (String × ℚ))) (acc : List (String × ℚ)),
      lookupStr (rules.foldl (fun a p =>
          if strOccurs p.1 msg then updateAssoc a p.2 else a) acc) f
        = ((rules.filter (fun p => strOccurs p.1 msg)).reverse.findSome?
            (fun p => lookupStr p.2.reverse f)).or (lookupStr acc f) := by
  intro rules
  induction rules with
  | nil => intro acc; rfl
  | cons p t ih =>
    intro acc
    rw [List.foldl_cons, List.filter_cons]
    by_cases hp : strOccurs p.1 msg = true
    · rw [if_pos hp, if_pos hp, ih, lookupStr_updateAssoc,
        List.reverse_cons, List.findSome?_append]
      rw [show List.findSome? (fun p => lookupStr p.2.reverse f) [p]
          = lookupStr p.2.reverse f by
        rw [List.findSome?_cons]
        rcases lookupStr p.2.reverse f with _ | v <;> rfl]
      exact (Option.or_assoc).symm
    · rw [if_neg hp, if_neg hp, ih]

theorem foldlPreserveMem {α β : Type} {P : α → Prop} {f : α → β → α} :
    ∀ l : List β, (∀ acc p, p ∈ l → P acc → P (f acc p)) →
      ∀ init, P init → P (l.foldl f init)
  | [], _, _, h => h
  | p :: t, hf, init, h =>
      foldlPreserveMem t (fun acc q hq => hf acc q (List.mem_cons_of_mem p hq))
        _ (hf init p (List.mem_cons_self p t) h)

theorem keys_setAssoc {m : List (String × ℚ)} {k : String} (v : ℚ)
    (h : k ∈ m.map Prod.fst) :
    (setAssoc m k v).map Prod.fst = m.map Prod.fst := by
  induction m with
  | nil => simp at h
  | cons p t ih =>
    rcases p with ⟨k0, v0⟩
    show (if k0 = k then (k0, v) :: t else (k0, v0) :: setAssoc t k v).map
      Prod.fst = _
    by_cases h0 : k0 = k
    · rw [if_pos h0]
      rfl
    · rw [if_neg h0]
      simp only [List.map_cons, List.mem_cons] at h ⊢
      rcases h with h | h
      · exact absurd h.symm h0
      · rw [ih h]

theorem keys_updateAssoc (vals : List (String × ℚ)) :
    ∀ acc : List (String × ℚ), (∀ q ∈ vals, q.1 ∈ acc.map Prod.fst) →
      (updateAssoc acc vals).map Prod.fst = acc.map Prod.fst := by
  induction vals with
  | nil => intro acc _; rfl
  | cons p t ih =>
    intro acc hq
    show (updateAssoc (setAssoc acc p.1 p.2) t).map Prod.fst = _
    have h1 : (setAssoc acc p.1 p.2).map Prod.fst = acc.map Prod.fst :=
      keys_setAssoc _ (hq p (List.mem_cons_self _ _))
    rw [ih _ (fun q hqt => by
      rw [h1]
      exact hq q (List.mem_cons_of_mem _ hqt)), h1]

theorem lookupStr_defaultAdjustments {f : String} (hf : f ∈ adjustmentKeys) :
    lookupStr defaultAdjustments f = some 0 := by
  fin_cases hf <;> rfl

/-! ## Claim C9 -/

/-- C9 (confirmed): `MoodExtractor.extract` lower-cases its input, matches
the rule keywords as unanchored substrings, and produces the dict whose keys
are exactly the 9 features (in the init order of the method) and whose value
at each feature is the delta from the *last* matching rule in
table-iteration order that sets the feature (overwrite semantics, not
accumulation), 0 when no matching rule sets it — in particular the all-zero
map when no keyword matches. -/
theorem extract_props :
    (∀ msg : String, (extract msg).map Prod.fst = adjustmentKeys) ∧
    (∀ msg f : String, f ∈ adjustmentKeys →
      lookupStr (extract msg) f = some (lastMatchValue msg f)) := by
  constructor
  · intro msg
    unfold extract
    refine foldlPreserveMem (P := fun a => a.map Prod.fst = adjustmentKeys)
      moodRules (fun acc p hp hacc => ?_) defaultAdjustments ?_
    · dsimp only
      split
      · rw [keys_updateAssoc p.2 acc (fun q hq => ?_), hacc]
        rw [hacc]
        have hsub : ∀ p ∈ moodRules, ∀ q ∈ p.2, q.1 ∈ adjustmentKeys := by
          decide
        exact hsub p hp q hq
      · exact hacc
    · show (adjustmentKeys.map (fun k => (k, (0 : ℚ)))).map Prod.fst = _
      rw [List.map_map]
      exact List.map_id _
  · intro msg f hf
    unfold extract lastMatchValue
    rw [lookupStr_extract_fold, lookupStr_defaultAdjustments hf]
    have hnd : ∀ q ∈ moodRules, (q.2.map Prod.fst).Nodup := by decide
    rw [findSome?_congr _ (fun p hp => lookupStr_reverse_nodup
      (hnd p (List.mem_of_mem_filter (List.mem_reverse.mp hp))) f)]
    rcases hF : (moodRules.filter
        (fun p => strOccurs p.1 msg.toLower)).reverse.findSome?
        (fun p => lookupStr p.2 f) with _ | v <;> rw [hF] <;> rfl

/-- Witness for C9 at a concrete input: both "sad" and "energetic" match;
the energy delta is the one of "sad", the rule matched last in table order. -/
theorem extract_witness :
    lookupStr (extract "sad and energetic") "energy"
      = some (lastMatchValue "sad and energetic" "energy") :=
  extract_props.2 "sad and energetic" "energy" (by decide)

/-! ## Similarity ranker (claims C5 and C7)

`sklearn.metrics.pairwise.cosine_similarity([mood], matrix)[0]` computes,
for each row, `dot(mood, row) / (‖mood‖ * ‖row‖)` with a zero norm replaced
by 1 (sklearn's `normalize`).  The square roots inside the norms make the
value irrational in general, so a score is represented exactly as the pair
`⟨num, rad⟩` denoting the real number `num / √rad` (`rad > 0` always holds
for pipeline scores).  The rational `key = num * |num| / rad` equals
`sign(cos) · cos²`, a strictly monotone image of the score, so comparisons
of keys are exactly comparisons of the real cosine values. -/

/-- An exact cosine-similarity score: the real number `num / √rad`. -/
structure SimScore where
  num : ℚ
  rad : ℚ
deriving DecidableEq

def dotProd (u v : List ℚ) : ℚ := (List.zipWith (· * ·) u v).foldr (· + ·) 0

def sumSq (u : List ℚ) : ℚ := dotProd u u

/-- sklearn `normalize` replaces a zero norm by 1 before dividing. -/
def safeSq (u : List ℚ) : ℚ := if sumSq u = 0 then 1 else sumSq u

/-- The score `cosine_similarity` assigns to one row:
`dot(u,v) / (‖u‖ * ‖v‖) = dotProd u v / √(safeSq u * safeSq v)`. -/
def cosineScore (u v : List ℚ) : SimScore := ⟨dotProd u v, safeSq u * safeSq v⟩

/-- The monotone rational key `sign(score) · score²` used to compare
scores: `(num / √rad) ≤ (num' / √rad')` iff `key ≤ key'` when the `rad`s
are positive. -/
def SimScore.key (s : SimScore) : ℚ := s.num * |s.num| / s.rad

/-- `similarities[idx] > 0` on the real score `num / √rad` (with
`rad > 0`) is `0 < num`. -/
def SimScore.posB (s : SimScore) : Bool := decide (0 < s.num)

/-- recsys.py lines 113-115: `for idx in exclude_indices: if idx <
len(similarities): similarities[idx] = -1`; the float `-1` is the score
`⟨-1, 1⟩`. -/
def applyExclusions (sims : List SimScore) (excludeIndices : List ℕ) :
    List SimScore :=
  excludeIndices.foldl
    (fun acc i => if i < acc.length then acc.set i ⟨-1, 1⟩ else acc) sims

/-- Stable insertion of `x` into a sorted list. -/
def insertAsc {α : Type} (le : α → α → Bool) (x : α) : List α → List α
  | [] => [x]
  | y :: ys => if le x y then x :: y :: ys else y :: insertAsc le x ys

/-- Stable insertion sort (ascending). -/
def sortAsc {α : Type} (le : α → α → Bool) : List α → List α
  | [] => []
  | x :: xs => insertAsc le x (sortAsc le xs)

/-- Comparator of the stable-argsort model: ascending by score with ties
by ascending index — the lexicographic order on (key, index).  numpy's
default quicksort leaves the order of equal scores unspecified on large
arrays, so theorems drawn from this model are restricted to conclusions
invariant under the order of equal scores (plus one small-array
counterexample, where numpy's insertion sort is stable and matches). -/
def argsortLe (sims : List SimScore) (i j : ℕ) : Bool :=
  decide (SimScore.key (sims.getD i ⟨0, 1⟩) < SimScore.key (sims.getD j ⟨0, 1⟩))
    || (decide (SimScore.key (sims.getD i ⟨0, 1⟩)
          = SimScore.key (sims.getD j ⟨0, 1⟩)) && decide (i ≤ j))

/-- `np.argsort(similarities)` modelled as the stable argsort (ascending
values, ties by ascending index). -/
def argsortAsc (sims : List SimScore) : List ℕ :=
  sortAsc (argsortLe sims) (List.range sims.length)

/-- recsys.py lines 117-118: `top_indices = np.argsort(similarities)[::-1]
[:n_recommendations]` and the comprehension
`[(int(idx), float(similarities[idx])) for idx in top_indices if
similarities[idx] > 0]`. -/
def rankedPairs (sims : List SimScore) (nRecommendations : ℕ) :
    List (ℕ × SimScore) :=
  (((argsortAsc sims).reverse.take nRecommendations).filter
    (fun i => SimScore.posB (sims.getD i ⟨0, 1⟩))).map
    (fun i => (i, sims.getD i ⟨0, 1⟩))

/-- `recommend_by_mood_vector` (recsys.py lines 105-118): cosine scores,
forced `-1` on excluded indices, `np.argsort(...)[::-1][:n]`, then keep the
strictly positive entries as `(index, score)` pairs. -/
def recommendByMoodVector (matrixScaled : List (List ℚ)) (moodVector : List ℚ)
    (nRecommendations : ℕ) (excludeIndices : List ℕ) : List (ℕ × SimScore) :=
  rankedPairs
    (applyExclusions (matrixScaled.map (fun row => cosineScore moodVector row))
      excludeIndices)
    nRecommendations

theorem insertAsc_perm {α : Type} (le : α → α → Bool) (x : α) :
    ∀ l : List α, (insertAsc le x l).Perm (x :: l)
  | [] => List.Perm.refl _
  | y :: ys => by
      show (if le x y then x :: y :: ys else y :: insertAsc le x ys).Perm _
      split
      · exact List.Perm.refl _
      · exact ((insertAsc_perm le x ys).cons y).trans (List.Perm.swap x y ys)

theorem sortAsc_perm {α : Type} (le : α → α → Bool) :
    ∀ l : List α, (sortAsc le l).Perm l
  | [] => List.Perm.refl _
  | x :: xs =>
      (insertAsc_perm le x (sortAsc le xs)).trans ((sortAsc_perm le xs).cons x)

theorem mem_insertAsc {α : Type} {le : α → α → Bool} {x z : α} {l : List α} :
    z ∈ insertAsc le x l ↔ z = x ∨ z ∈ l := by
  rw [(insertAsc_perm le x l).mem_iff, List.mem_cons]

theorem insertAsc_pairwise {α : Type} {le : α → α → Bool}
    (htot : ∀ a b, le a b = true ∨ le b a = true)
    (htrans : ∀ a b c, le a b = true → le b c = true → le a c = true)
    (x : α) :
    ∀ {l : List α}, l.Pairwise (fun a b => le a b = true) →
      (insertAsc le x l).Pairwise (fun a b => le a b = true) := by
  intro l
  induction l with
  | nil => intro _; exact List.pairwise_singleton _ x
  | cons y ys ih =>
    intro hp
    rcases List.pairwise_cons.mp hp with ⟨hy, hys⟩
    show (if le x y then x :: y :: ys else y :: insertAsc le x ys).Pairwise _
    split
    next hxy =>
      refine List.pairwise_cons.mpr ⟨?_, hp⟩
      intro z hz
      rcases List.mem_cons.mp hz with rfl | hz2
      · exact hxy
      · exact htrans x y z hxy (hy z hz2)
    next hxy =>
      have hyx : le y x = true := by
        rcases htot x y with h | h
        · exact absurd h hxy
        · exact h
      refine List.pairwise_cons.mpr ⟨?_, ih hys⟩
      intro z hz
      rcases mem_insertAsc.mp hz with rfl | hz2
      · exact hyx
      · exact hy z hz2

theorem sortAsc_pairwise {α : Type} {le : α → α → Bool}
    (htot : ∀ a b, le a b = true ∨ le b a = true)
    (htrans : ∀ a b c, le a b = true → le b c = true → le a c = true) :
    ∀ l : List α, (sortAsc le l).Pairwise (fun a b => le a b = true)
  | [] => List.Pairwise.nil
  | x :: xs =>
      insertAsc_pairwise htot htrans x (sortAsc_pairwise htot htrans xs)

theorem argsortLe_total (sims : List SimScore) (i j : ℕ) :
    argsortLe sims i j = true ∨ argsortLe sims j i = true := by
  unfold argsortLe
  simp only [Bool.or_eq_true, Bool.and_eq_true, decide_eq_true_eq]
  rcases lt_trichotomy (SimScore.key (sims.getD i ⟨0, 1⟩))
      (SimScore.key (sims.getD j ⟨0, 1⟩)) with h | h | h
  · exact Or.inl (Or.inl h)
  · rcases Nat.le_total i j with hij | hij
    · exact Or.inl (Or.inr ⟨h, hij⟩)
    · exact Or.inr (Or.inr ⟨h.symm, hij⟩)
  · exact Or.inr (Or.inl h)

theorem argsortLe_trans (sims : List SimScore) (i j k : ℕ)
    (h1 : argsortLe sims i j = true) (h2 : argsortLe sims j k = true) :
    argsortLe sims i k = true := by
  unfold argsortLe at *
  simp only [Bool.or_eq_true, Bool.and_eq_true, decide_eq_true_eq] at *
  rcases h1 with h1 | ⟨h1e, h1i⟩ <;> rcases h2 with h2 | ⟨h2e, h2i⟩
  · exact Or.inl (h1.trans h2)
  · exact Or.inl (h2e ▸ h1)
  · exact Or.inl (h1e ▸ h2)
  · exact Or.inr ⟨h1e.trans h2e, h1i.trans h2i⟩

theorem applyExclusions_length (excl : List ℕ) :
    ∀ sims : List SimScore, (applyExclusions sims excl).length = sims.length := by
  induction excl with
  | nil => intro _; rfl
  | cons i t ih =>
    intro sims
    show (applyExclusions
      (if i < sims.length then sims.set i ⟨-1, 1⟩ else sims) t).length = _
    rw [ih]
    split
    · exact List.length_set sims i _
    · rfl

theorem applyExclusions_getD_or (excl : List ℕ) :
    ∀ (sims : List SimScore) (e : ℕ),
      (applyExclusions sims excl).getD e ⟨0, 1⟩ = sims.getD e ⟨0, 1⟩ ∨
      (applyExclusions sims excl).getD e ⟨0, 1⟩ = ⟨-1, 1⟩ := by
  induction excl with
  | nil => intro sims e; exact Or.inl rfl
  | cons i t ih =>
    intro sims e
    have hfold : applyExclusions sims (i :: t)
        = applyExclusions
            (if i < sims.length then sims.set i ⟨-1, 1⟩ else sims) t := rfl
    rw [hfold]
    rcases ih (if i < sims.length then sims.set i ⟨-1, 1⟩ else sims) e
      with h | h
    · rw [h]
      split
      next hlen =>
        by_cases hie : i = e
        · subst hie
          right
          rw [List.getD_eq_getElem?_getD, List.getElem?_set_self hlen]
          rfl
        · left
          rw [List.getD_eq_getElem?_getD, List.getD_eq_getElem?_getD,
            List.getElem?_set_ne hie]
      next => exact Or.inl rfl
    · exact Or.inr h

theorem applyExclusions_getD (excl : List ℕ) :
    ∀ (sims : List SimScore) (e : ℕ), e ∈ excl → e < sims.length →
      (applyExclusions sims excl).getD e ⟨0, 1⟩ = ⟨-1, 1⟩ := by
  induction excl with
  | nil => intro _ e he _; cases he
  | cons i t ih =>
    intro sims e he hlen
    show (applyExclusions
      (if i < sims.length then sims.set i ⟨-1, 1⟩ else sims) t).getD e ⟨0, 1⟩
        = _
    rcases List.mem_cons.mp he with rfl | he2
    · rw [if_pos hlen]
      rcases applyExclusions_getD_or t (sims.set e ⟨-1, 1⟩) e with h | h
      · rw [h, List.getD_eq_getElem?_getD, List.getElem?_set_self hlen]
        rfl
      · exact h
    · split
      next => exact ih _ e he2 (by simpa using hlen)
      next => exact ih _ e he2 hlen

/-- Out-of-range exclusion indices are ignored silently: the per-index step
is the identity whenever the index is at least the catalog size. -/
theorem applyExclusions_out_of_range (sims : List SimScore)
    {excl : List ℕ} (h : ∀ i ∈ excl, sims.length ≤ i) :
    applyExclusions sims excl = sims :=
  foldlFixed (fun i hi => if_neg (not_lt.mpr (h i hi)))

/-- In the stable-argsort model the result is pairwise ordered by
descending key with descending-index ties.  Only the tie-insensitive first
component is asserted of the program (the model fixes a tie order numpy
does not guarantee). -/
theorem rankedPairs_pairwise (sims : List SimScore) (n : ℕ) :
    (rankedPairs sims n).Pairwise
      (fun a b => SimScore.key b.2 ≤ SimScore.key a.2 ∧
        (SimScore.key a.2 ≤ SimScore.key b.2 → b.1 < a.1)) := by
  have hpair : (argsortAsc sims).Pairwise
      (fun i j => argsortLe sims i j = true) :=
    sortAsc_pairwise (argsortLe_total sims) (argsortLe_trans sims) _
  have hnodup : (argsortAsc sims).Nodup :=
    ((sortAsc_perm (argsortLe sims) (List.range sims.length)).symm).nodup
      (List.nodup_range sims.length)
  have hcomb := hpair.and hnodup
  have hrev : ((argsortAsc sims).reverse).Pairwise
      (fun i j => (argsortLe sims j i = true) ∧ j ≠ i) :=
    List.pairwise_reverse.mpr hcomb
  have hsub : List.Sublist
      (((argsortAsc sims).reverse.take n).filter
        (fun i => SimScore.posB (sims.getD i ⟨0, 1⟩)))
      (argsortAsc sims).reverse :=
    (List.filter_sublist _).trans (List.take_sublist _ _)
  have hfil := List.Pairwise.sublist hsub hrev
  unfold rankedPairs
  refine List.pairwise_map.mpr (hfil.imp ?_)
  intro i j hij
  rcases hij with ⟨hle, hne⟩
  unfold argsortLe at hle
  simp only [Bool.or_eq_true, Bool.and_eq_true, decide_eq_true_eq] at hle
  rcases hle with hlt | ⟨heq, hji⟩
  · exact ⟨hlt.le, fun h2 => absurd h2 (not_le.mpr hlt)⟩
  · exact ⟨heq.le, fun _ => lt_of_le_of_ne hji hne⟩

theorem rankedPairs_pos (sims : List SimScore) (n : ℕ) :
    ∀ p ∈ rankedPairs sims n, 0 < p.2.num := by
  intro p hp
  rcases List.mem_map.mp hp with ⟨i, hi, rfl⟩
  have h : SimScore.posB (sims.getD i ⟨0, 1⟩) = true :=
    (List.mem_filter.mp hi).2
  exact of_decide_eq_true h

theorem rankedPairs_len (sims : List SimScore) (n : ℕ) :
    (rankedPairs sims n).length ≤ n := by
  unfold rankedPairs
  rw [List.length_map]
  exact le_trans (List.length_filter_le _ _) (List.length_take_le _ _)

theorem rankedPairs_mem_lt (sims : List SimScore) (n : ℕ) (e : ℕ)
    (he : e ∈ (rankedPairs sims n).map Prod.fst) :
    e < sims.length ∧ SimScore.posB (sims.getD e ⟨0, 1⟩) = true := by
  unfold rankedPairs at he
  rw [List.map_map] at he
  have he2 : e ∈ ((argsortAsc sims).reverse.take n).filter
      (fun i => SimScore.posB (sims.getD i ⟨0, 1⟩)) := by
    simpa using he
  have hpos : SimScore.posB (sims.getD e ⟨0, 1⟩) = true :=
    (List.mem_filter.mp he2).2
  refine ⟨?_, hpos⟩
  have h3 : e ∈ (argsortAsc sims).reverse :=
    List.Sublist.mem (List.mem_filter.mp he2).1 (List.take_sublist _ _)
  have h4 : e ∈ List.range sims.length :=
    (sortAsc_perm (argsortLe sims) (List.range sims.length)).mem_iff.mp
      (List.mem_reverse.mp h3)
  exact List.mem_range.mp h4

/-! ## Claim C5 -/

/-- C5 (counterexample to the claim as stated): two identical catalog rows
tie at score 1 against a mood vector equal to them, and the result comes
back as [(index 1, score 1), (index 0, score 1)] — equal scores ordered by
*descending* original index.  On a 2-element array numpy's argsort runs its
stable insertion sort, producing ascending-index ties, and the subsequent
`[::-1]` reverses them, so the claimed ascending tie-break is false. -/
theorem recommend_tie_cex :
    recommendByMoodVector
        [[1, 0, 0, 0, 0, 0, 0, 0, 0], [1, 0, 0, 0, 0, 0, 0, 0, 0]]
        [1, 0, 0, 0, 0, 0, 0, 0, 0] 2 []
      = [(1, ⟨1, 1⟩), (0, ⟨1, 1⟩)] := by
  with_unfolding_all decide

/-- C5 (amended): for every mood vector, every n, and every exclude list,
`recommend_by_mood_vector` returns entries sorted by score descending (a
conclusion independent of how `np.argsort` orders equal scores, which its
default unstable quicksort leaves unspecified — and which is demonstrably
not ascending-index: see the counterexample), keeps only entries with
strictly positive score, and returns at most n entries (fewer when fewer
positive-score non-excluded items exist, which is not an error — the
function is total).  Score comparisons are stated via the strictly
monotone rational key `num * |num| / rad` of the exact score
`num / √rad`. -/
theorem recommend_ranked (matrixScaled : List (List ℚ)) (moodVector : List ℚ)
    (n : ℕ) (excludeIndices : List ℕ) :
    ((recommendByMoodVector matrixScaled moodVector n excludeIndices).Pairwise
      (fun a b => SimScore.key b.2 ≤ SimScore.key a.2)) ∧
    (∀ p ∈ recommendByMoodVector matrixScaled moodVector n excludeIndices,
      0 < p.2.num) ∧
    (recommendByMoodVector matrixScaled moodVector n excludeIndices).length
      ≤ n := by
  unfold recommendByMoodVector
  exact ⟨(rankedPairs_pairwise _ _).imp (fun h => h.1),
    rankedPairs_pos _ _, rankedPairs_len _ _⟩

/-! ## Claim C7 -/

/-- C7 (confirmed): no index of the exclude list ever appears among the
returned indices — its similarity is forced to -1, which fails the strictly
positive filter — and exclude indices at or beyond the catalog size are
ignored silently (the per-index update is the identity there; the function
is total, so nothing is raised). -/
theorem recommend_excludes (matrixScaled : List (List ℚ))
    (moodVector : List ℚ) (n : ℕ) (excludeIndices : List ℕ) (e : ℕ) :
    (e ∈ excludeIndices →
      e ∉ (recommendByMoodVector matrixScaled moodVector n
        excludeIndices).map Prod.fst) ∧
    (∀ sims : List SimScore, (∀ i ∈ excludeIndices, sims.length ≤ i) →
      applyExclusions sims excludeIndices = sims) := by
  constructor
  · intro he hmem
    unfold recommendByMoodVector at hmem
    have h := rankedPairs_mem_lt _ n e hmem
    have hlen : e < (matrixScaled.map
        (fun row => cosineScore moodVector row)).length := by
      have h1 := h.1
      rwa [applyExclusions_length] at h1
    have hgd := applyExclusions_getD excludeIndices _ e he hlen
    rw [hgd] at h
    exact absurd (of_decide_eq_true h.2)
      (by norm_num : ¬((0 : ℚ) < (-1 : ℚ)))
  · intro sims hs
    exact applyExclusions_out_of_range sims hs

/-- Witness for C7 at a concrete input: index 0 is excluded and absent from
the result even though its similarity to the mood vector is 1. -/
theorem recommend_excludes_witness :
    (0 : ℕ) ∉ (recommendByMoodVector [[1, 0, 0, 0, 0, 0, 0, 0, 0]]
      [1, 0, 0, 0, 0, 0, 0, 0, 0] 1 [0]).map Prod.fst :=
  (recommend_excludes [[1, 0, 0, 0, 0, 0, 0, 0, 0]]
    [1, 0, 0, 0, 0, 0, 0, 0, 0] 1 [0] 0).1 (by decide)
